import Mathlib

/-!
# http_dummy_image: the request parser, the font fitter and the request handler

A shallow embedding of `main.go`.  Go strings are modelled as lists of Unicode
code points (`List Char`), Go's `int` as `Int` with an explicit range check for
the 64-bit platform, `float64` as exact rationals, and the external libraries
(`regexp`, `strconv`, `fmt`, `time`, `net/http`, `gg`, `truetype`, the image
encoders) by small executable models of the part of their documented behaviour
that `main.go` relies on.
-/

namespace DummyImage

/-! ## Go's `regexp`: a backtracking matcher with leftmost-first priority -/

/-- Regular-expression syntax, the fragment of RE2 that `parseUrl` uses. -/
inductive Regex where
  | bot : Regex
  | eot : Regex
  | cls : (Char → Bool) → Regex
  | cat : Regex → Regex → Regex
  | alt : Regex → Regex → Regex
  | star : Regex → Regex
  | opt : Regex → Regex
  | cap : Nat → Regex → Regex

/-- One thread of the matcher: the offset reached, the input still to read, and
the capture groups closed so far (most recent first). -/
structure Thread where
  pos : Nat
  rest : List Char
  caps : List (Nat × List Char)

/-- Greedy iteration: every way to run `step` repeatedly, longest first; an
iteration that consumes nothing is not repeated. -/
def starLoop (step : Thread → List Thread) : Nat → Thread → List Thread
  | 0, t => [t]
  | n + 1, t =>
    ((step t).filter (fun u => decide (t.pos < u.pos))).flatMap (starLoop step n) ++ [t]

/-- All the ways the expression matches at the thread's position, in the
priority order of a leftmost-first (Perl-like) matcher. -/
def run : Regex → Thread → List Thread
  | .bot, t => if t.pos = 0 then [t] else []
  | .eot, t => if t.rest.isEmpty then [t] else []
  | .cls p, t =>
    match t.rest with
    | [] => []
    | c :: cs => if p c then [{ t with pos := t.pos + 1, rest := cs }] else []
  | .cat a b, t => (run a t).flatMap (run b)
  | .alt a b, t => run a t ++ run b t
  | .star a, t => starLoop (run a) t.rest.length t
  | .opt a, t => run a t ++ [t]
  | .cap i a, t =>
    (run a t).map (fun u => { u with caps := (i, t.rest.take (u.pos - t.pos)) :: u.caps })

/-- The literal character `c`. -/
def Regex.chr (c : Char) : Regex := .cls (fun x => x == c)

/-- The class `\d`: in RE2 the ASCII digits only. -/
def Regex.digit : Regex := .cls (fun x => decide ('0' ≤ x ∧ x ≤ '9'))

/-- The class `.`: any character but the line feed (flag `s` is off). -/
def Regex.dot : Regex := .cls (fun x => x != '\n')

/-- The repetition `a+`. -/
def Regex.plus (a : Regex) : Regex := .cat a (.star a)

/-- Leftmost match: the first start offset, from `k` on, at which the expression matches,
with the highest-priority thread there. -/
def findFrom (re : Regex) (s : List Char) : Nat → Nat → Option (Nat × Thread)
  | 0, _ => none
  | n + 1, k =>
    match run re { pos := k, rest := s.drop k, caps := [] } with
    | u :: _ => some (k, u)
    | [] => findFrom re s n (k + 1)

/-- The method `FindStringSubmatch`: `none` when there is no match, else the text of the match
followed by the text of each of the `n` groups, the empty string for a group that did not
take part. -/
def FindStringSubmatch (re : Regex) (n : Nat) (s : List Char) : Option (List (List Char)) :=
  match findFrom re s (s.length + 1) 0 with
  | none => none
  | some (k, u) =>
    some (((s.drop k).take (u.pos - k)) ::
      (List.range n).map (fun i => ((u.caps.lookup (i + 1)).getD [])))

/-- A compiled pattern: the program and the names of its groups (group 0 included). -/
structure Regexp where
  prog : Regex
  names : List String

/-- The method `SubexpNames`. -/
def Regexp.SubexpNames (e : Regexp) : List String := e.names

/-- The method `FindStringSubmatch` of a compiled pattern. -/
def Regexp.FindStringSubmatch (e : Regexp) (s : List Char) : Option (List (List Char)) :=
  DummyImage.FindStringSubmatch e.prog (e.names.length - 1) s

/-! ## Go errors, `strconv.Atoi`, `fmt.Sprintf("%d")`, `time.Now` -/

/-- Values of Go's `error` that the program produces or passes on. -/
inductive GoError where
  | new (msg : String)
  | numError (func : String) (num : List Char) (msg : String)
  | wrap (msg : String) (cause : GoError)
  | external (msg : String)
deriving DecidableEq, Repr

/-- Width of Go's `int` on the 64-bit platforms. -/
def intSize : Nat := 64

/-- Largest value of `int`. -/
def maxInt : Int := 2 ^ (intSize - 1) - 1

/-- Smallest value of `int`. -/
def minInt : Int := -(2 ^ (intSize - 1))

/-- Conversion to `int` with two's complement wrap-around, for `int` arithmetic. -/
def wrapInt (i : Int) : Int := (i + 2 ^ (intSize - 1)) % 2 ^ intSize - 2 ^ (intSize - 1)

/-- An ASCII decimal digit. -/
def isDigit (c : Char) : Bool := decide ('0' ≤ c ∧ c ≤ '9')

/-- Value of a run of decimal digits, most significant first. -/
def digitsValue (ds : List Char) : Nat := ds.foldl (fun n c => 10 * n + (c.toNat - '0'.toNat)) 0

/-- The function `strconv.Atoi`: an optional sign and a non-empty run of decimal digits; the
value with no error when it lies in the range of `int`, the nearest bound with a range error
when it does not, and 0 with an error for any other string. -/
def Atoi (s : List Char) : Int × Option GoError :=
  let ds := match s with
    | '+' :: r => r
    | '-' :: r => r
    | _ => s
  let neg := s.head? == some '-'
  if ds.isEmpty || !ds.all isDigit then
    (0, some (.numError "Atoi" s "invalid syntax"))
  else
    let n : Int := if neg then -(digitsValue ds : Int) else (digitsValue ds : Int)
    if n < minInt then (minInt, some (.numError "Atoi" s "value out of range"))
    else if maxInt < n then (maxInt, some (.numError "Atoi" s "value out of range"))
    else (n, none)

/-- The verb `%d` of `fmt.Sprintf` on an integer: the decimal digits, after a minus sign for a
negative number. -/
def formatInt (i : Int) : List Char :=
  if i < 0 then '-' :: Nat.toDigits 10 i.natAbs else Nat.toDigits 10 i.natAbs

/-- What the program reads off the wall clock (`time.Now()`): the result of `UnixMilli()`, an
`int64`, and the result of `Format("2006-01-02 15:04:05.000 -0700")`. -/
structure Clock where
  unixMilli : Int
  datetime : List Char

/-! ## `parseUrl` -/

/-- The type `imgFormat`, a string type. -/
abbrev imgFormat := String

/-- The constant `png`. -/
def png : imgFormat := "png"

/-- The constant `jpg`. -/
def jpg : imgFormat := "jpg"

/-- The constant `gif`. -/
def gif : imgFormat := "gif"

/-- The optional label of the pattern: `(/(?P<text>.*))?`. -/
def expLabel : Regex := .opt (.cap 1 (.cat (.chr '/') (.cap 2 (.star .dot))))

/-- The extension of the pattern: `png|jpe?g|gif`. -/
def expFormat : Regex :=
  .alt (.cat (.chr 'p') (.cat (.chr 'n') (.chr 'g')))
    (.alt (.cat (.chr 'j') (.cat (.chr 'p') (.cat (.opt (.chr 'e')) (.chr 'g'))))
      (.cat (.chr 'g') (.cat (.chr 'i') (.chr 'f'))))

/-- The pattern compiled in `parseUrl`:
`^(/(?P<text>.*))?/(?P<width>\d+)x(?P<height>\d+)\.(?P<format>png|jpe?g|gif)$`. -/
def expProg : Regex :=
  .cat .bot
  (.cat expLabel
  (.cat (.chr '/')
  (.cat (.cap 3 (.plus .digit))
  (.cat (.chr 'x')
  (.cat (.cap 4 (.plus .digit))
  (.cat (.chr '.')
  (.cat (.cap 5 expFormat) .eot)))))))

/-- The compiled pattern `exp` of `parseUrl`, with the names of its five groups. -/
def exp : Regexp :=
  { prog := expProg, names := ["", "", "text", "width", "height", "format"] }

/-- The function `findRegexpMatches`: the map from group name to matched text, empty when
the string does not match; the map is an association list, latest entry first. -/
def findRegexpMatches (e : Regexp) (str : List Char) : List (String × List Char) :=
  match e.FindStringSubmatch str with
  | none => []
  | some m =>
    e.SubexpNames.enum.foldl
      (fun result p => if p.1 ≠ 0 ∧ p.2 ≠ "" then (p.2, m.getD p.1 []) :: result else result) []

/-- The five results of `parseUrl`. -/
structure ParseResult where
  width : Int
  height : Int
  text : List Char
  format : imgFormat
  err : Option GoError
deriving DecidableEq, Repr

/-- The `switch` of `parseUrl` on the text of the group `format`; it has no default case, so
any other text leaves the zero value. -/
def formatSwitch (val : List Char) : imgFormat :=
  if val = "png".toList then png
  else if val = "jpg".toList then jpg
  else if val = "jpeg".toList then jpg
  else if val = "gif".toList then gif
  else ""

/-- The last block of `parseUrl`: the text from the entry `text` of the map. -/
def resolveText (clk : Clock) (width height : Int) (entry : Option (List Char)) : List Char :=
  match entry with
  | none => formatInt width ++ 'x' :: formatInt height
  | some val =>
    if val = [] then formatInt width ++ 'x' :: formatInt height
    else if val = "timestamp".toList then formatInt clk.unixMilli
    else if val = "datetime".toList then clk.datetime
    else val

/-- The function `parseUrl`, on the path of the URL and the clock. -/
def parseUrl (clk : Clock) (path : List Char) : ParseResult :=
  let ms := findRegexpMatches exp path
  match ms.lookup "width" with
  | none => ⟨0, 0, [], "", some (.new "invalid URL, missing width")⟩
  | some wval =>
    let (width, werr) := Atoi wval
    if werr.isSome then ⟨width, 0, [], "", werr⟩ else
    match ms.lookup "height" with
    | none => ⟨width, 0, [], "", some (.new "invalid URL, missing height")⟩
    | some hval =>
      let (height, herr) := Atoi hval
      if herr.isSome then ⟨width, height, [], "", herr⟩ else
      match ms.lookup "format" with
      | none => ⟨width, height, [], "", some (.new "invalid URL, missing format")⟩
      | some fval =>
        ⟨width, height, resolveText clk width height (ms.lookup "text"), formatSwitch fval, none⟩

/-! ## The font fitter and the renderer

The rendering libraries are external.  Their behaviour enters as data: whether the embedded
font parses, what `MeasureString` returns at the reference size, and what each encoder writes.
The type `float64` is idealised to exact rationals. -/

/-- The drawing context `*gg.Context` on the gray canvas: the `Size` option of the TrueType
face last set (`none` for the face the context starts with) and the string drawn, if any,
with its anchor point. -/
structure Context where
  face : Option ℚ
  drawn : Option (List Char × ℚ × ℚ)

/-- The external rendering libraries as seen by the program: the error of
`truetype.Parse(fontBytes)` if any, the extents `MeasureString` returns at the reference size,
and what the encoder of a format writes, with its error, for the canvas of the given width
and height in the state of the context. -/
structure Graphics where
  fontParse : Option GoError
  measure : List Char → ℚ × ℚ
  encode : imgFormat → Int → Int → Context → List Nat × Option GoError

/-- The value of `points` in `loadFontFace`, from the measured extents `tw` and `th`; the
products `72*width` and `72*height` are computed in `int`. -/
def fitPoints (width height : Int) (tw th : ℚ) : ℚ :=
  let cw := 0.8 * (wrapInt (72 * width) : ℚ) / tw
  let ch := 0.8 * (wrapInt (72 * height) : ℚ) / th
  (⌊min cw ch⌋ : ℤ)

/-- The function `loadFontFace`: the context after the call and the error returned. -/
def loadFontFace (g : Graphics) (dc : Context) (width height : Int) (text : List Char) :
    Context × Option GoError :=
  match g.fontParse with
  | some err => (dc, some err)
  | none =>
    let dc := { dc with face := some 72 }
    let (tw, th) := g.measure text
    let points := fitPoints width height tw th
    ({ dc with face := some points }, none)

/-- The function `drawLabel`: the context after the call and the error returned. -/
def drawLabel (g : Graphics) (width height : Int) (text : List Char) :
    Context × Option GoError :=
  let dc : Context := { face := none, drawn := none }
  let (dc, err) := loadFontFace g dc width height text
  match err with
  | some e => (dc, some (.wrap "failed to load font" e))
  | none => ({ dc with drawn := some (text, (width : ℚ) / 2, (height : ℚ) / 2) }, none)

/-- The function `drawImage`: the bytes written to the writer `w` and the error returned.  The
`switch` on the format has no default case: for any other format nothing is encoded. -/
def drawImage (g : Graphics) (width height : Int) (text : List Char) (format : imgFormat) :
    List Nat × Option GoError :=
  let (dc, err) := drawLabel g width height text
  match err with
  | some e => ([], some (.wrap "failed to draw label" e))
  | none =>
    let (out, err) :=
      if format = png ∨ format = jpg ∨ format = gif then
        g.encode format width height dc
      else ([], none)
    match err with
    | some e => (out, some (.wrap "failed to encode image" e))
    | none => (out, none)

/-! ## The response writer and the handler -/

/-- The `http.ResponseWriter`: the header map, the status and the headers committed by the first
`WriteHeader` or `Write`, the body bytes written, and the number of bytes the connection
still accepts before `Write` fails. -/
structure ResponseWriter where
  header : List (String × String)
  committed : Option (Nat × List (String × String))
  body : List Nat
  room : Nat

/-- The call `w.Header().Set(key, value)`. -/
def ResponseWriter.HeaderSet (w : ResponseWriter) (key value : String) : ResponseWriter :=
  { w with header := (key, value) :: w.header.filter (fun p => p.1 != key) }

/-- The method `WriteHeader`: commits the status and the current headers, once. -/
def ResponseWriter.WriteHeader (w : ResponseWriter) (code : Nat) : ResponseWriter :=
  match w.committed with
  | some _ => w
  | none => { w with committed := some (code, w.header) }

/-- The method `Write`: commits status 200 if nothing is committed yet, then writes as many of
the bytes as the connection accepts; the count written, and an error when it is short. -/
def ResponseWriter.Write (w : ResponseWriter) (p : List Nat) :
    ResponseWriter × Int × Option GoError :=
  let w := w.WriteHeader 200
  let n := min p.length w.room
  ({ w with body := w.body ++ p.take n, room := w.room - n }, (n : Int),
    if n < p.length then some (.external "write failed") else none)

/-- The function `statusCode` (its log line to the standard output is not modelled). -/
def statusCode (rw : ResponseWriter) (code : Nat) : ResponseWriter :=
  if code ≠ 200 then rw.WriteHeader code else rw

/-- The function `imageHandler`, on the path of the request (its log line to the standard
output is not modelled). -/
def imageHandler (clk : Clock) (g : Graphics) (w : ResponseWriter) (path : List Char) :
    ResponseWriter :=
  let r := parseUrl clk path
  if r.err.isSome then statusCode w 404 else
  let (buf, err) := drawImage g r.width r.height r.text r.format
  if err.isSome then statusCode w 500 else
  let (w, lng, err) := w.Write buf
  if err.isSome then statusCode w 500 else
  let w :=
    if r.format = png then w.HeaderSet "Content-Type" "image/png"
    else if r.format = jpg then w.HeaderSet "Content-Type" "image/jpeg"
    else if r.format = gif then w.HeaderSet "Content-Type" "image/gif"
    else w
  w.HeaderSet "Content-Length" (String.mk (formatInt lng))

/-! ## The grammar of the accepted paths -/

/-- The four extension tokens of the pattern. -/
def extTokens : List (List Char) := ["png".toList, "jpg".toList, "jpeg".toList, "gif".toList]

/-- The text of group 1: nothing without a label, else the slash and the label. -/
def labelPrefix : Option (List Char) → List Char
  | none => []
  | some L => '/' :: L

/-- The groups 1 and 2 as the matcher records them. -/
def labelCaps : Option (List Char) → List (Nat × List Char)
  | none => []
  | some L => [(1, '/' :: L), (2, L)]

/-- The path built from an optional label, two digit runs and an extension. -/
def mkPath (lbl : Option (List Char)) (W H e : List Char) : List Char :=
  labelPrefix lbl ++ ('/' :: W ++ ('x' :: H ++ '.' :: e))

/-- The parts of a path of the grammar: a label without line feed, two non-empty runs of
digits, one of the four extensions. -/
def WellFormed (lbl : Option (List Char)) (W H e : List Char) : Prop :=
  (∀ L, lbl = some L → ∀ c ∈ L, c ≠ '\n') ∧ W ≠ [] ∧ (∀ c ∈ W, isDigit c = true) ∧
    H ≠ [] ∧ (∀ c ∈ H, isDigit c = true) ∧ e ∈ extTokens

/-- The groups that `FindStringSubmatch` reports for a path read as label, width, height and
extension. -/
def groupsOf (lbl : Option (List Char)) (W H e : List Char) : List (List Char) :=
  [mkPath lbl W H e, labelPrefix lbl, lbl.getD [], W, H, e]

/-! ## Lemmas on the matcher -/

theorem mem_run_cat (a b : Regex) (t u : Thread) :
    u ∈ run (.cat a b) t ↔ ∃ v, v ∈ run a t ∧ u ∈ run b v := by
  simp only [run, List.mem_flatMap]

theorem mem_run_alt (a b : Regex) (t u : Thread) :
    u ∈ run (.alt a b) t ↔ u ∈ run a t ∨ u ∈ run b t := by
  simp only [run, List.mem_append]

theorem mem_run_opt (a : Regex) (t u : Thread) :
    u ∈ run (.opt a) t ↔ u ∈ run a t ∨ u = t := by
  simp only [run, List.mem_append, List.mem_singleton]

theorem mem_run_cls (p : Char → Bool) (t u : Thread) :
    u ∈ run (.cls p) t ↔ ∃ c r, t.rest = c :: r ∧ p c = true ∧ u = ⟨t.pos + 1, r, t.caps⟩ := by
  obtain ⟨pos, rest, caps⟩ := t
  cases rest with
  | nil => simp [run]
  | cons c cs =>
    by_cases h : p c = true
    · simp only [run, h, if_true, List.mem_singleton, List.cons.injEq]
      constructor
      · intro hu; exact ⟨c, cs, ⟨rfl, rfl⟩, h, hu⟩
      · rintro ⟨c', r, ⟨rfl, rfl⟩, -, hu⟩; exact hu
    · simp only [run, h]
      constructor
      · intro hu; simp at hu
      · rintro ⟨c', r, hc, hp, -⟩
        simp only [List.cons.injEq] at hc
        exact absurd (hc.1 ▸ hp) h

theorem mem_run_chr (c : Char) (t u : Thread) :
    u ∈ run (.chr c) t ↔ ∃ r, t.rest = c :: r ∧ u = ⟨t.pos + 1, r, t.caps⟩ := by
  rw [Regex.chr, mem_run_cls]
  constructor
  · rintro ⟨c', r, h, hc, hu⟩
    have : c' = c := by simpa using hc
    exact ⟨r, this ▸ h, hu⟩
  · rintro ⟨r, h, hu⟩
    exact ⟨c, r, h, by simp, hu⟩

theorem mem_starLoop_cls (p : Char → Bool) (u : Thread) :
    ∀ (n : Nat) (t : Thread), t.rest.length ≤ n →
      (u ∈ starLoop (run (.cls p)) n t ↔
        ∃ w r, t.rest = w ++ r ∧ (∀ c ∈ w, p c = true) ∧ u = ⟨t.pos + w.length, r, t.caps⟩) := by
  intro n
  induction n with
  | zero =>
    rintro ⟨pos, rest, caps⟩ ht
    have hnil : rest = [] := List.length_eq_zero.mp (Nat.le_zero.mp ht)
    subst hnil
    simp only [starLoop, List.mem_singleton]
    constructor
    · rintro rfl
      exact ⟨[], [], by simp, by simp, by simp⟩
    · rintro ⟨w, r, hw, -, hu⟩
      obtain ⟨rfl, rfl⟩ := List.append_eq_nil.mp hw.symm
      rw [hu]; rfl
  | succ n ih =>
    rintro ⟨pos, rest, caps⟩ ht
    simp only at ht
    simp only [starLoop, List.mem_append, List.mem_flatMap, List.mem_filter, List.mem_singleton,
      decide_eq_true_eq]
    constructor
    · rintro (⟨v, ⟨hv, -⟩, huv⟩ | rfl)
      · obtain ⟨c, r, hc, hp, rfl⟩ := (mem_run_cls p _ v).mp hv
        simp only at hc
        subst hc
        have hlen : r.length ≤ n := by simpa using ht
        obtain ⟨w, r', hw, hpw, hu⟩ := (ih ⟨pos + 1, r, caps⟩ hlen).mp huv
        simp only at hw hu
        refine ⟨c :: w, r', by simp [hw], ?_, ?_⟩
        · intro x hx
          rcases List.mem_cons.mp hx with rfl | hx
          · exact hp
          · exact hpw x hx
        · rw [hu]; simp only [List.length_cons, Thread.mk.injEq, and_true]; omega
      · exact ⟨[], rest, by simp, by simp, by simp⟩
    · rintro ⟨w, r, hw, hpw, hu⟩
      cases w with
      | nil =>
        right
        simp only [List.nil_append] at hw
        rw [hu, hw]; rfl
      | cons c w =>
        left
        subst hw
        have hlen : (w ++ r).length ≤ n := by simpa using ht
        refine ⟨⟨pos + 1, w ++ r, caps⟩, ⟨?_, by simp⟩, ?_⟩
        · exact (mem_run_cls p _ _).mpr ⟨c, w ++ r, by simp, hpw c (by simp), rfl⟩
        · refine (ih ⟨pos + 1, w ++ r, caps⟩ hlen).mpr ⟨w, r, rfl, ?_, ?_⟩
          · intro x hx; exact hpw x (List.mem_cons_of_mem _ hx)
          · rw [hu]; simp only [List.length_cons, Thread.mk.injEq, and_true]; omega

theorem mem_run_star_cls (p : Char → Bool) (t u : Thread) :
    u ∈ run (.star (.cls p)) t ↔
      ∃ w r, t.rest = w ++ r ∧ (∀ c ∈ w, p c = true) ∧ u = ⟨t.pos + w.length, r, t.caps⟩ := by
  simp only [run]
  exact mem_starLoop_cls p u _ t (Nat.le_refl _)

theorem mem_run_plus_cls (p : Char → Bool) (t u : Thread) :
    u ∈ run (.plus (.cls p)) t ↔
      ∃ w r, w ≠ [] ∧ t.rest = w ++ r ∧ (∀ c ∈ w, p c = true) ∧
        u = ⟨t.pos + w.length, r, t.caps⟩ := by
  simp only [Regex.plus, run, List.mem_flatMap]
  constructor
  · rintro ⟨v, hv, hu⟩
    obtain ⟨c, r, hc, hp, rfl⟩ := (mem_run_cls p t v).mp hv
    obtain ⟨w, r', hw, hpw, hu⟩ := (mem_starLoop_cls p u _ _ (Nat.le_refl _)).mp hu
    simp only at hw hu
    refine ⟨c :: w, r', by simp, by simp [hc, hw], ?_, ?_⟩
    · intro x hx
      rcases List.mem_cons.mp hx with rfl | hx
      · exact hp
      · exact hpw x hx
    · rw [hu]; simp only [List.length_cons, Thread.mk.injEq, and_true]; omega
  · rintro ⟨w, r, hne, hw, hpw, hu⟩
    cases w with
    | nil => exact absurd rfl hne
    | cons c w =>
      refine ⟨⟨t.pos + 1, w ++ r, t.caps⟩, ?_, ?_⟩
      · exact (mem_run_cls p t _).mpr ⟨c, w ++ r, by simpa using hw, hpw c (by simp), rfl⟩
      · refine (mem_starLoop_cls p u _ _ (Nat.le_refl _)).mpr ⟨w, r, rfl, ?_, ?_⟩
        · intro x hx; exact hpw x (List.mem_cons_of_mem _ hx)
        · rw [hu]; simp only [List.length_cons, Thread.mk.injEq, and_true]; omega

theorem mem_run_expFormat (t u : Thread) :
    u ∈ run expFormat t ↔
      ∃ e r, e ∈ extTokens ∧ t.rest = e ++ r ∧ u = ⟨t.pos + e.length, r, t.caps⟩ := by
  obtain ⟨pos, rest, caps⟩ := t
  simp only [expFormat, mem_run_cat, mem_run_alt, mem_run_opt, mem_run_chr]
  constructor
  · rintro (⟨_, ⟨r1, h1, rfl⟩, _, ⟨r2, h2, rfl⟩, r3, h3, rfl⟩ |
      ⟨_, ⟨r1, h1, rfl⟩, _, ⟨r2, h2, rfl⟩, _, (⟨r3, h3, rfl⟩ | rfl), r4, h4, rfl⟩ |
      ⟨_, ⟨r1, h1, rfl⟩, _, ⟨r2, h2, rfl⟩, r3, h3, rfl⟩)
    · simp only at h1 h2 h3
      subst h1 h2 h3
      exact ⟨"png".toList, r3, by simp [extTokens], rfl, rfl⟩
    · simp only at h1 h2 h3 h4
      subst h1 h2 h3 h4
      exact ⟨"jpeg".toList, r4, by simp [extTokens], rfl, rfl⟩
    · simp only at h1 h2 h4
      subst h1 h2 h4
      exact ⟨"jpg".toList, r4, by simp [extTokens], rfl, rfl⟩
    · simp only at h1 h2 h3
      subst h1 h2 h3
      exact ⟨"gif".toList, r3, by simp [extTokens], rfl, rfl⟩
  · rintro ⟨e, r, he, hr, rfl⟩
    simp only [extTokens, List.mem_cons, List.mem_singleton, List.not_mem_nil, or_false] at he
    rcases he with rfl | rfl | rfl | rfl
    · left
      exact ⟨_, ⟨_, hr, rfl⟩, _, ⟨_, rfl, rfl⟩, _, rfl, rfl⟩
    · right; left
      exact ⟨_, ⟨_, hr, rfl⟩, _, ⟨_, rfl, rfl⟩, _, Or.inr rfl, _, rfl, rfl⟩
    · right; left
      exact ⟨_, ⟨_, hr, rfl⟩, _, ⟨_, rfl, rfl⟩, _, Or.inl ⟨_, rfl, rfl⟩, _, rfl, rfl⟩
    · right; right
      exact ⟨_, ⟨_, hr, rfl⟩, _, ⟨_, rfl, rfl⟩, _, rfl, rfl⟩

theorem mem_run_cap (i : Nat) (a : Regex) (t u : Thread) :
    u ∈ run (.cap i a) t ↔
      ∃ v ∈ run a t, u = ⟨v.pos, v.rest, (i, t.rest.take (v.pos - t.pos)) :: v.caps⟩ := by
  simp only [run, List.mem_map]
  constructor
  · rintro ⟨v, hv, rfl⟩; exact ⟨v, hv, rfl⟩
  · rintro ⟨v, hv, rfl⟩; exact ⟨v, hv, rfl⟩

theorem mem_run_bot (t u : Thread) : u ∈ run .bot t ↔ t.pos = 0 ∧ u = t := by
  by_cases h : t.pos = 0 <;> simp [run, h]

theorem mem_run_eot (t u : Thread) : u ∈ run .eot t ↔ t.rest = [] ∧ u = t := by
  by_cases h : t.rest = [] <;> simp [run, h]

theorem mem_run_cap_digits (i : Nat) (t u : Thread) :
    u ∈ run (.cap i (.plus .digit)) t ↔
      ∃ w r, w ≠ [] ∧ t.rest = w ++ r ∧ (∀ c ∈ w, isDigit c = true) ∧
        u = ⟨t.pos + w.length, r, (i, w) :: t.caps⟩ := by
  obtain ⟨pos, rest, caps⟩ := t
  rw [mem_run_cap]
  simp only [Regex.digit, mem_run_plus_cls]
  constructor
  · rintro ⟨v, ⟨w, r, hne, hw, hpw, rfl⟩, rfl⟩
    replace hw : rest = _ := hw
    subst hw
    exact ⟨w, r, hne, rfl, hpw, by simp⟩
  · rintro ⟨w, r, hne, hw, hpw, rfl⟩
    replace hw : rest = _ := hw
    subst hw
    exact ⟨_, ⟨w, r, hne, rfl, hpw, rfl⟩, by simp⟩

theorem mem_run_cap_expFormat (t u : Thread) :
    u ∈ run (.cap 5 expFormat) t ↔
      ∃ e r, e ∈ extTokens ∧ t.rest = e ++ r ∧ u = ⟨t.pos + e.length, r, (5, e) :: t.caps⟩ := by
  obtain ⟨pos, rest, caps⟩ := t
  rw [mem_run_cap]
  simp only [mem_run_expFormat]
  constructor
  · rintro ⟨v, ⟨e, r, he, hw, rfl⟩, rfl⟩
    replace hw : rest = _ := hw
    subst hw
    exact ⟨e, r, he, rfl, by simp⟩
  · rintro ⟨e, r, he, hw, rfl⟩
    replace hw : rest = _ := hw
    subst hw
    exact ⟨_, ⟨e, r, he, rfl, rfl⟩, by simp⟩

theorem mem_run_expLabel (t u : Thread) :
    u ∈ run expLabel t ↔
      (∃ L r, t.rest = '/' :: L ++ r ∧ (∀ c ∈ L, c ≠ '\n') ∧
        u = ⟨t.pos + 1 + L.length, r, (1, '/' :: L) :: (2, L) :: t.caps⟩) ∨ u = t := by
  obtain ⟨pos, rest, caps⟩ := t
  rw [expLabel, mem_run_opt, mem_run_cap]
  simp only [mem_run_cat, mem_run_chr, mem_run_cap, Regex.dot, mem_run_star_cls]
  constructor
  · rintro (⟨v, ⟨v1, ⟨r1, h1, rfl⟩, v2, ⟨L, r, hL, hpL, rfl⟩, rfl⟩, rfl⟩ | rfl)
    · left
      replace h1 : rest = _ := h1
      replace hL : r1 = _ := hL
      subst hL h1
      refine ⟨L, r, rfl, ?_, ?_⟩
      · intro c hc; simpa using hpL c hc
      · have e1 : pos + (L.length + 1) - (pos + 1) = L.length := by omega
        simp [Nat.add_assoc, Nat.add_comm 1 L.length, List.take_succ_cons, e1]
    · right; rfl
  · rintro (⟨L, r, hL, hpL, rfl⟩ | rfl)
    · left
      replace hL : rest = _ := hL
      subst hL
      refine ⟨_, ⟨_, ⟨L ++ r, rfl, rfl⟩, _, ⟨L, r, rfl, ?_, rfl⟩, rfl⟩, ?_⟩
      · intro c hc; simpa using hpL c hc
      · have e1 : pos + (L.length + 1) - (pos + 1) = L.length := by omega
        simp [Nat.add_assoc, Nat.add_comm 1 L.length, List.take_succ_cons, e1]
    · right; rfl

theorem mem_run_expProg (s : List Char) (u : Thread) :
    u ∈ run expProg ⟨0, s, []⟩ ↔
      ∃ lbl W H e, WellFormed lbl W H e ∧ s = mkPath lbl W H e ∧
        u = ⟨s.length, [], (5, e) :: (4, H) :: (3, W) :: labelCaps lbl⟩ := by
  simp only [expProg, mem_run_cat, mem_run_bot, mem_run_eot, mem_run_expLabel, mem_run_chr,
    mem_run_cap_digits, mem_run_cap_expFormat]
  constructor
  · rintro ⟨v0, ⟨-, rfl⟩, v1, hlab, v2, ⟨r2, h2, rfl⟩, v3, ⟨W, r3, hW, h3, hpW, rfl⟩,
      v4, ⟨r4, h4, rfl⟩, v5, ⟨H, r5, hH, h5, hpH, rfl⟩, v6, ⟨r6, h6, rfl⟩,
      v7, ⟨e, r7, he, h7, rfl⟩, h8, rfl⟩
    replace h8 : r7 = [] := h8
    replace h7 : r6 = _ := h7
    replace h6 : r5 = _ := h6
    replace h5 : r4 = _ := h5
    replace h4 : r3 = _ := h4
    replace h3 : r2 = _ := h3
    subst h8 h7 h6 h5 h4 h3
    rcases hlab with ⟨L, r, hL, hpL, rfl⟩ | rfl
    · replace hL : s = _ := hL
      replace h2 : r = _ := h2
      subst h2 hL
      refine ⟨some L, W, H, e, ⟨?_, hW, hpW, hH, hpH, he⟩, ?_, ?_⟩
      · intro L' hL'; cases hL'; exact hpL
      · simp [mkPath, labelPrefix]
      · simp [labelCaps]; omega
    · replace h2 : s = _ := h2
      subst h2
      refine ⟨none, W, H, e, ⟨?_, hW, hpW, hH, hpH, he⟩, ?_, ?_⟩
      · intro L' hL'; cases hL'
      · simp [mkPath, labelPrefix]
      · simp [labelCaps]; omega
  · rintro ⟨lbl, W, H, e, ⟨hpL, hW, hpW, hH, hpH, he⟩, rfl, rfl⟩
    cases lbl with
    | none =>
      refine ⟨_, ⟨trivial, rfl⟩, _, Or.inr rfl, _, ⟨_, rfl, rfl⟩, _, ⟨W, _, hW, rfl, hpW, rfl⟩,
        _, ⟨_, rfl, rfl⟩, _, ⟨H, _, hH, rfl, hpH, rfl⟩, _, ⟨_, rfl, rfl⟩,
        _, ⟨e, [], he, by simp, rfl⟩, rfl, ?_⟩
      simp [mkPath, labelPrefix, labelCaps]; omega
    | some L =>
      refine ⟨_, ⟨trivial, rfl⟩, _, Or.inl ⟨L, _, rfl, hpL L rfl, rfl⟩, _, ⟨_, rfl, rfl⟩,
        _, ⟨W, _, hW, rfl, hpW, rfl⟩,
        _, ⟨_, rfl, rfl⟩, _, ⟨H, _, hH, rfl, hpH, rfl⟩, _, ⟨_, rfl, rfl⟩,
        _, ⟨e, [], he, by simp, rfl⟩, rfl, ?_⟩
      simp [mkPath, labelPrefix, labelCaps]; omega

/-! ## A path has at most one reading -/

theorem split_at_last (c : Char) :
    ∀ (a a' b b' : List Char), c ∉ b → c ∉ b' → a ++ c :: b = a' ++ c :: b' →
      a = a' ∧ b = b' := by
  intro a
  induction a with
  | nil =>
    intro a' b b' hb hb' h
    cases a' with
    | nil => simpa using h
    | cons x a2 =>
      simp only [List.nil_append, List.cons_append, List.cons.injEq] at h
      exact absurd (h.2 ▸ (by simp : c ∈ a2 ++ c :: b')) hb
  | cons y a1 ih =>
    intro a' b b' hb hb' h
    cases a' with
    | nil =>
      simp only [List.nil_append, List.cons_append, List.cons.injEq] at h
      exact absurd (h.2 ▸ (by simp : c ∈ a1 ++ c :: b)) hb'
    | cons x a2 =>
      simp only [List.cons_append, List.cons.injEq] at h
      obtain ⟨h1, h2⟩ := ih a2 b b' hb hb' h.2
      exact ⟨by rw [h.1, h1], h2⟩

theorem not_mem_of_digits (c : Char) (hc : isDigit c = false) (w : List Char)
    (hw : ∀ x ∈ w, isDigit x = true) : c ∉ w := by
  intro h
  have := hw c h
  rw [hc] at this
  exact Bool.noConfusion this

theorem dot_not_mem_ext (e : List Char) (he : e ∈ extTokens) : '.' ∉ e := by
  have hall : ∀ x ∈ extTokens, '.' ∉ x := by decide
  exact hall e he

theorem mkPath_inj (lbl lbl' : Option (List Char)) (W W' H H' e e' : List Char)
    (h : WellFormed lbl W H e) (h' : WellFormed lbl' W' H' e')
    (heq : mkPath lbl W H e = mkPath lbl' W' H' e') :
    lbl = lbl' ∧ W = W' ∧ H = H' ∧ e = e' := by
  obtain ⟨-, -, hpW, -, hpH, he⟩ := h
  obtain ⟨-, -, hpW', -, hpH', he'⟩ := h'
  have e1 : (labelPrefix lbl ++ '/' :: W ++ 'x' :: H) ++ '.' :: e =
      (labelPrefix lbl' ++ '/' :: W' ++ 'x' :: H') ++ '.' :: e' := by
    simpa [mkPath] using heq
  obtain ⟨e2, hee⟩ := split_at_last '.' _ _ _ _ (dot_not_mem_ext e he) (dot_not_mem_ext e' he') e1
  have e2' : (labelPrefix lbl ++ '/' :: W) ++ 'x' :: H = (labelPrefix lbl' ++ '/' :: W') ++ 'x' :: H' := by
    simpa using e2
  obtain ⟨e3, hHH⟩ := split_at_last 'x' _ _ _ _ (not_mem_of_digits 'x' (by decide) H hpH)
    (not_mem_of_digits 'x' (by decide) H' hpH') e2'
  obtain ⟨e4, hWW⟩ := split_at_last '/' _ _ _ _ (not_mem_of_digits '/' (by decide) W hpW)
    (not_mem_of_digits '/' (by decide) W' hpW') e3
  refine ⟨?_, hWW, hHH, hee⟩
  cases lbl with
  | none =>
    cases lbl' with
    | none => rfl
    | some L' => simp [labelPrefix] at e4
  | some L =>
    cases lbl' with
    | none => simp [labelPrefix] at e4
    | some L' =>
      simp only [labelPrefix, List.cons.injEq, true_and] at e4
      rw [e4]

/-! ## `FindStringSubmatch` and `findRegexpMatches` on the pattern of `parseUrl` -/

theorem run_expProg_off (t : Thread) (h : t.pos ≠ 0) : run expProg t = [] := by
  apply List.eq_nil_iff_forall_not_mem.mpr
  intro u hu
  rw [expProg, mem_run_cat] at hu
  obtain ⟨v, hv, -⟩ := hu
  exact h ((mem_run_bot t v).mp hv).1

theorem findFrom_expProg_off (s : List Char) :
    ∀ (n k : Nat), 0 < k → findFrom expProg s n k = none := by
  intro n
  induction n with
  | zero => intro k _; rfl
  | succ n ih =>
    intro k hk
    simp only [findFrom]
    rw [run_expProg_off _ (by simpa using Nat.pos_iff_ne_zero.mp hk)]
    exact ih (k + 1) (Nat.succ_pos k)

theorem FindStringSubmatch_exp_some (s : List Char) (m : List (List Char))
    (h : exp.FindStringSubmatch s = some m) :
    ∃ lbl W H e, WellFormed lbl W H e ∧ s = mkPath lbl W H e ∧ m = groupsOf lbl W H e := by
  simp only [Regexp.FindStringSubmatch, FindStringSubmatch, exp, findFrom, List.drop_zero] at h
  cases hr : run expProg ⟨0, s, []⟩ with
  | nil =>
    rw [hr] at h
    simp only [findFrom_expProg_off s _ 1 (by decide)] at h
    cases h
  | cons u us =>
    rw [hr] at h
    have hu : u ∈ run expProg ⟨0, s, []⟩ := by rw [hr]; simp
    obtain ⟨lbl, W, H, e, hwf, hs, rfl⟩ := (mem_run_expProg s u).mp hu
    refine ⟨lbl, W, H, e, hwf, hs, ?_⟩
    subst hs
    simp only [Option.some.injEq] at h
    rw [← h]
    simp only [Nat.sub_zero, List.drop_zero, List.take_length]
    cases lbl <;> rfl

theorem FindStringSubmatch_exp_of_wf (lbl : Option (List Char)) (W H e : List Char)
    (h : WellFormed lbl W H e) :
    exp.FindStringSubmatch (mkPath lbl W H e) = some (groupsOf lbl W H e) := by
  cases hf : exp.FindStringSubmatch (mkPath lbl W H e) with
  | none =>
    exfalso
    simp only [Regexp.FindStringSubmatch, FindStringSubmatch, exp, findFrom, List.drop_zero] at hf
    have hu := (mem_run_expProg (mkPath lbl W H e) _).mpr ⟨lbl, W, H, e, h, rfl, rfl⟩
    cases hr : run expProg ⟨0, mkPath lbl W H e, []⟩ with
    | nil => rw [hr] at hu; cases hu
    | cons u us => rw [hr] at hf; cases hf
  | some m =>
    obtain ⟨lbl', W', H', e', hwf', hs, rfl⟩ := FindStringSubmatch_exp_some _ m hf
    obtain ⟨rfl, rfl, rfl, rfl⟩ := mkPath_inj lbl lbl' W W' H H' e e' h hwf' hs
    rfl

theorem findRegexpMatches_exp_of_wf (lbl : Option (List Char)) (W H e : List Char)
    (h : WellFormed lbl W H e) :
    findRegexpMatches exp (mkPath lbl W H e) =
      [("format", e), ("height", H), ("width", W), ("text", lbl.getD [])] := by
  simp only [findRegexpMatches, FindStringSubmatch_exp_of_wf lbl W H e h]
  rfl

theorem findRegexpMatches_exp_none (s : List Char) (h : exp.FindStringSubmatch s = none) :
    findRegexpMatches exp s = [] := by
  simp only [findRegexpMatches, h]

/-! ## `Atoi` on a run of digits -/

theorem Atoi_digits (W : List Char) (hne : W ≠ []) (hd : ∀ c ∈ W, isDigit c = true) :
    Atoi W = if (digitsValue W : Int) ≤ maxInt then ((digitsValue W : Int), none)
      else (maxInt, some (.numError "Atoi" W "value out of range")) := by
  cases W with
  | nil => exact absurd rfl hne
  | cons c cs =>
    have hc : isDigit c = true := hd c (by simp)
    have hplus : c ≠ '+' := by rintro rfl; revert hc; decide
    have hminus : c ≠ '-' := by rintro rfl; revert hc; decide
    have hall : (c :: cs).all isDigit = true := List.all_eq_true.mpr hd
    have hds : (match c :: cs with
        | '+' :: r => r
        | '-' :: r => r
        | _ => c :: cs) = c :: cs := by
      split
      · rename_i h; simp only [List.cons.injEq] at h; exact absurd h.1 hplus
      · rename_i h; simp only [List.cons.injEq] at h; exact absurd h.1 hminus
      · rfl
    have hmin : ¬ ((digitsValue (c :: cs) : Int) < minInt) := by
      have : minInt < 0 := by decide
      omega
    simp only [Atoi, hds, hall, List.head?_cons, List.isEmpty_cons, Bool.not_true, Bool.or_self,
      Bool.false_eq_true, if_false]
    have hneg : (some c == some '-') = false := by simpa using hminus
    simp only [hneg, Bool.false_eq_true, if_false, hmin]
    by_cases hle : (digitsValue (c :: cs) : Int) ≤ maxInt
    · simp [hle, not_lt.mpr hle]
    · simp [hle, not_le.mp hle]

/-! ## `parseUrl` on the paths of the grammar, and only on them -/

theorem parseUrl_of_wf (clk : Clock) (lbl : Option (List Char)) (W H e : List Char)
    (h : WellFormed lbl W H e) :
    parseUrl clk (mkPath lbl W H e) =
      if ¬ (digitsValue W : Int) ≤ maxInt then
        ⟨maxInt, 0, [], "", some (.numError "Atoi" W "value out of range")⟩
      else if ¬ (digitsValue H : Int) ≤ maxInt then
        ⟨digitsValue W, maxInt, [], "", some (.numError "Atoi" H "value out of range")⟩
      else
        ⟨digitsValue W, digitsValue H,
          resolveText clk (digitsValue W) (digitsValue H) (some (lbl.getD [])),
          formatSwitch e, none⟩ := by
  have hms := findRegexpMatches_exp_of_wf lbl W H e h
  have lw : List.lookup "width" [("format", e), ("height", H), ("width", W),
      ("text", lbl.getD [])] = some W := by rfl
  have lh : List.lookup "height" [("format", e), ("height", H), ("width", W),
      ("text", lbl.getD [])] = some H := by rfl
  have lf : List.lookup "format" [("format", e), ("height", H), ("width", W),
      ("text", lbl.getD [])] = some e := by rfl
  have lt : List.lookup "text" [("format", e), ("height", H), ("width", W),
      ("text", lbl.getD [])] = some (lbl.getD []) := by rfl
  obtain ⟨-, hW, hpW, hH, hpH, -⟩ := h
  simp only [parseUrl, hms, lw, lh, lf, lt, Atoi_digits W hW hpW, Atoi_digits H hH hpH]
  by_cases h1 : (digitsValue W : Int) ≤ maxInt
  · by_cases h2 : (digitsValue H : Int) ≤ maxInt
    · simp [h1, h2]
    · simp [h1, h2]
  · simp [h1]

theorem parseUrl_no_match (clk : Clock) (s : List Char) (h : exp.FindStringSubmatch s = none) :
    parseUrl clk s = ⟨0, 0, [], "", some (.new "invalid URL, missing width")⟩ := by
  simp only [parseUrl, findRegexpMatches_exp_none s h, List.lookup]

theorem parseUrl_ok_shape (clk : Clock) (s : List Char) (h : (parseUrl clk s).err = none) :
    ∃ lbl W H e, WellFormed lbl W H e ∧ s = mkPath lbl W H e ∧
      (digitsValue W : Int) ≤ maxInt ∧ (digitsValue H : Int) ≤ maxInt := by
  cases hf : exp.FindStringSubmatch s with
  | none =>
    rw [parseUrl_no_match clk s hf] at h
    cases h
  | some m =>
    obtain ⟨lbl, W, H, e, hwf, rfl, -⟩ := FindStringSubmatch_exp_some s m hf
    refine ⟨lbl, W, H, e, hwf, rfl, ?_⟩
    rw [parseUrl_of_wf clk lbl W H e hwf] at h
    by_cases h1 : (digitsValue W : Int) ≤ maxInt
    · by_cases h2 : (digitsValue H : Int) ≤ maxInt
      · exact ⟨h1, h2⟩
      · simp [h1, h2] at h
    · simp [h1] at h

/-! ## The decimal rendering parses back -/

theorem digitChar_isDigit (k : Nat) (hk : k < 10) : isDigit (Nat.digitChar k) = true := by
  interval_cases k <;> decide

theorem digitChar_value (k : Nat) (hk : k < 10) : (Nat.digitChar k).toNat - '0'.toNat = k := by
  interval_cases k <;> decide

theorem digitsValue_append_singleton (xs : List Char) (d : Char) :
    digitsValue (xs ++ [d]) = 10 * digitsValue xs + (d.toNat - '0'.toNat) := by
  simp [digitsValue, List.foldl_append]

theorem toDigitsCore_append (fuel : Nat) :
    ∀ (n : Nat) (acc : List Char),
      Nat.toDigitsCore 10 fuel n acc = Nat.toDigitsCore 10 fuel n [] ++ acc := by
  induction fuel with
  | zero => intro n acc; simp [Nat.toDigitsCore]
  | succ fuel ih =>
    intro n acc
    simp only [Nat.toDigitsCore]
    by_cases h : n / 10 = 0
    · simp [h]
    · simp only [h, if_false]
      rw [ih (n / 10) (_ :: acc), ih (n / 10) [_]]
      simp

theorem toDigitsCore_spec (fuel : Nat) :
    ∀ (n : Nat), n < fuel →
      Nat.toDigitsCore 10 fuel n [] ≠ [] ∧
      (∀ c ∈ Nat.toDigitsCore 10 fuel n [], isDigit c = true) ∧
      digitsValue (Nat.toDigitsCore 10 fuel n []) = n := by
  induction fuel with
  | zero => intro n hn; omega
  | succ fuel ih =>
    intro n hn
    simp only [Nat.toDigitsCore]
    have hmod : n % 10 < 10 := Nat.mod_lt _ (by decide)
    by_cases h : n / 10 = 0
    · simp only [h, if_true]
      refine ⟨by simp, ?_, ?_⟩
      · intro c hc
        rw [List.mem_singleton.mp hc]
        exact digitChar_isDigit _ hmod
      · have := digitsValue_append_singleton [] (Nat.digitChar (n % 10))
        simp only [List.nil_append] at this
        rw [this, digitChar_value _ hmod]
        simp only [digitsValue, List.foldl_nil]
        omega
    · simp only [h, if_false]
      rw [toDigitsCore_append]
      have hlt : n / 10 < fuel := by omega
      obtain ⟨-, h2, h3⟩ := ih (n / 10) hlt
      refine ⟨by simp, ?_, ?_⟩
      · intro c hc
        rcases List.mem_append.mp hc with hc | hc
        · exact h2 c hc
        · rw [List.mem_singleton.mp hc]
          exact digitChar_isDigit _ hmod
      · rw [digitsValue_append_singleton, h3, digitChar_value _ hmod]
        omega

theorem toDigits_spec (n : Nat) :
    Nat.toDigits 10 n ≠ [] ∧ (∀ c ∈ Nat.toDigits 10 n, isDigit c = true) ∧
      digitsValue (Nat.toDigits 10 n) = n :=
  toDigitsCore_spec (n + 1) n (Nat.lt_succ_self n)

theorem Atoi_formatInt (n : Int) (h1 : minInt ≤ n) (h2 : n ≤ maxInt) :
    Atoi (formatInt n) = (n, none) := by
  obtain ⟨hne, hd, hv⟩ := toDigits_spec n.natAbs
  by_cases hn : n < 0
  · have hall : (Nat.toDigits 10 n.natAbs).all isDigit = true := List.all_eq_true.mpr hd
    have hemp : (Nat.toDigits 10 n.natAbs).isEmpty = false := by
      cases hds : Nat.toDigits 10 n.natAbs with
      | nil => exact absurd hds hne
      | cons _ _ => rfl
    have hval : -(n.natAbs : Int) = n := by omega
    simp only [formatInt, hn, if_true, Atoi, List.head?_cons, beq_self_eq_true, hall, hemp, hv,
      Bool.not_true, Bool.or_self, Bool.false_eq_true, if_false, hval, not_lt.mpr h1,
      not_lt.mpr h2]
  · have hval : (n.natAbs : Int) = n := by omega
    simp only [formatInt, hn, if_false]
    rw [Atoi_digits _ hne hd, hv, hval]
    simp [h2]


theorem formatInt_natCast (n : Nat) : formatInt (n : Int) = Nat.toDigits 10 n := by
  have h : ¬ ((n : Int) < 0) := by omega
  simp only [formatInt, h, if_false, Int.natAbs_ofNat]

theorem toDigitsCore_head (fuel : Nat) :
    ∀ (n : Nat), n < fuel → 0 < n → (Nat.toDigitsCore 10 fuel n []).head? ≠ some '0' := by
  induction fuel with
  | zero => intro n hn; omega
  | succ fuel ih =>
    intro n hn hpos
    simp only [Nat.toDigitsCore]
    by_cases h : n / 10 = 0
    · simp only [h, if_true, List.head?_cons]
      have h10 : n < 10 := by omega
      have hmod : n % 10 = n := Nat.mod_eq_of_lt h10
      rw [hmod]
      interval_cases n <;> decide
    · simp only [h, if_false]
      rw [toDigitsCore_append]
      have hlt : n / 10 < fuel := by omega
      have hne := (toDigitsCore_spec fuel (n / 10) hlt).1
      rw [List.head?_append_of_ne_nil _ hne]
      exact ih (n / 10) hlt (Nat.pos_of_ne_zero h)

theorem formatInt_no_leading_zero (n : Nat) (h : (formatInt (n : Int)).head? = some '0') :
    n = 0 := by
  by_contra hn
  rw [formatInt_natCast] at h
  exact toDigitsCore_head (n + 1) n (Nat.lt_succ_self n) (Nat.pos_of_ne_zero hn) h

theorem mkPath_some_eq (L W H e : List Char) :
    ['/'] ++ L ++ ['/'] ++ W ++ ['x'] ++ H ++ ['.'] ++ e = mkPath (some L) W H e := by
  simp [mkPath, labelPrefix]

theorem mkPath_none_eq (W H e : List Char) :
    ['/'] ++ W ++ ['x'] ++ H ++ ['.'] ++ e = mkPath none W H e := by
  simp [mkPath, labelPrefix]

theorem formatSwitch_of_ext (e : List Char) (he : e ∈ extTokens) :
    (e = "png".toList ∧ formatSwitch e = png) ∨ (e = "jpg".toList ∧ formatSwitch e = jpg) ∨
      (e = "jpeg".toList ∧ formatSwitch e = jpg) ∨ (e = "gif".toList ∧ formatSwitch e = gif) := by
  have hall : ∀ x ∈ extTokens,
      (x = "png".toList ∧ formatSwitch x = png) ∨ (x = "jpg".toList ∧ formatSwitch x = jpg) ∨
      (x = "jpeg".toList ∧ formatSwitch x = jpg) ∨ (x = "gif".toList ∧ formatSwitch x = gif) := by
    decide
  exact hall e he

theorem resolveText_clock (ms : Int) (clk : Clock) (width height : Int)
    (entry : Option (List Char)) (h : entry ≠ some "timestamp".toList) :
    resolveText ⟨ms, clk.datetime⟩ width height entry = resolveText clk width height entry := by
  cases entry with
  | none => rfl
  | some val =>
    have hv : val ≠ "timestamp".toList := fun hv => h (by rw [hv])
    simp only [resolveText, hv, if_false]

/-! ## The claims on `parseUrl` -/

/-- C1, counterexample: the path `/0x50.png` parses without error and its width is 0, so the
dimensions of an accepted path need not be strictly positive. -/
theorem parseUrl_zero_width_accepted :
    (parseUrl ⟨0, []⟩ "/0x50.png".toList).err = none ∧
      ¬ (0 < (parseUrl ⟨0, []⟩ "/0x50.png".toList).width ∧
         0 < (parseUrl ⟨0, []⟩ "/0x50.png".toList).height) := by
  decide

/-- C1, amended: for every path, if `parseUrl` returns no error then both returned dimensions
are non-negative and at most the largest `int`. -/
theorem parseUrl_dimensions_nonneg (clk : Clock) (path : List Char)
    (h : (parseUrl clk path).err = none) :
    0 ≤ (parseUrl clk path).width ∧ (parseUrl clk path).width ≤ maxInt ∧
      0 ≤ (parseUrl clk path).height ∧ (parseUrl clk path).height ≤ maxInt := by
  obtain ⟨lbl, W, H, e, hwf, rfl, hW, hH⟩ := parseUrl_ok_shape clk path h
  rw [parseUrl_of_wf clk lbl W H e hwf, if_neg (not_not.mpr hW), if_neg (not_not.mpr hH)]
  exact ⟨Int.natCast_nonneg _, hW, Int.natCast_nonneg _, hH⟩

/-- C1, amended, at the path `/0x50.png`. -/
theorem parseUrl_dimensions_nonneg_witness :
    (parseUrl ⟨0, []⟩ "/0x50.png".toList).err = none ∧
      (0 ≤ (parseUrl ⟨0, []⟩ "/0x50.png".toList).width ∧
       (parseUrl ⟨0, []⟩ "/0x50.png".toList).width ≤ maxInt ∧
       0 ≤ (parseUrl ⟨0, []⟩ "/0x50.png".toList).height ∧
       (parseUrl ⟨0, []⟩ "/0x50.png".toList).height ≤ maxInt) :=
  ⟨by decide, parseUrl_dimensions_nonneg ⟨0, []⟩ "/0x50.png".toList (by decide)⟩

/-- C2, counterexample: the label made of `a`, a line feed and `b` is non-empty and is neither
`timestamp` nor `datetime`, yet `parseUrl` returns an error on its path with `100x50.png`. -/
theorem parseUrl_label_line_feed_rejected :
    (parseUrl ⟨0, []⟩ (['/'] ++ ['a', '\n', 'b'] ++ ['/'] ++ "100".toList ++ ['x'] ++
      "50".toList ++ ['.'] ++ "png".toList)).err ≠ none := by
  decide

/-- C2, amended: for every non-empty label `L` without a line feed, other than `timestamp` and
`datetime`, every pair of non-empty digit runs `W` and `H` within the range of `int` and
every extension of the four, `parseUrl` on `/L/WxH.ext` returns no error, the text `L`
unchanged, and the width and height that `W` and `H` denote. -/
theorem parseUrl_label_verbatim (clk : Clock) (L W H e : List Char)
    (hL : L ≠ []) (hts : L ≠ "timestamp".toList) (hdt : L ≠ "datetime".toList)
    (hnl : '\n' ∉ L)
    (hW : W ≠ []) (hdW : ∀ c ∈ W, isDigit c = true) (hWr : (digitsValue W : Int) ≤ maxInt)
    (hH : H ≠ []) (hdH : ∀ c ∈ H, isDigit c = true) (hHr : (digitsValue H : Int) ≤ maxInt)
    (he : e ∈ extTokens) :
    parseUrl clk (['/'] ++ L ++ ['/'] ++ W ++ ['x'] ++ H ++ ['.'] ++ e) =
      ⟨digitsValue W, digitsValue H, L, formatSwitch e, none⟩ := by
  have hwf : WellFormed (some L) W H e := by
    refine ⟨?_, hW, hdW, hH, hdH, he⟩
    intro L' hL' c hc hcn
    cases hL'
    exact hnl (hcn ▸ hc)
  rw [mkPath_some_eq, parseUrl_of_wf clk (some L) W H e hwf, if_neg (not_not.mpr hWr),
    if_neg (not_not.mpr hHr)]
  simp only [resolveText, Option.getD_some, hL, hts, hdt, if_false]

/-- C2, amended, at the path `/hello/100x50.jpg`. -/
theorem parseUrl_label_verbatim_witness :
    parseUrl ⟨0, []⟩ (['/'] ++ "hello".toList ++ ['/'] ++ "100".toList ++ ['x'] ++
      "50".toList ++ ['.'] ++ "jpg".toList) =
      ⟨digitsValue "100".toList, digitsValue "50".toList, "hello".toList,
        formatSwitch "jpg".toList, none⟩ :=
  parseUrl_label_verbatim ⟨0, []⟩ "hello".toList "100".toList "50".toList "jpg".toList
    (by decide) (by decide) (by decide) (by decide) (by decide) (by decide) (by decide)
    (by decide) (by decide) (by decide) (by decide)

/-- C3: for every pair of non-empty digit runs `W` and `H` within the range of `int` and
every extension of the four, `parseUrl` on `/WxH.ext` (no label) and on `//WxH.ext` (empty
label) returns no error, the width and height that `W` and `H` denote, and as text the decimal
rendering of the width, an `x`, and the decimal rendering of the height; each rendering
denotes the dimension again and starts with the digit 0 only for the dimension 0, so leading
zeros of `W` and `H` are not in the text. -/
theorem parseUrl_default_text (clk : Clock) (W H e : List Char)
    (hW : W ≠ []) (hdW : ∀ c ∈ W, isDigit c = true) (hWr : (digitsValue W : Int) ≤ maxInt)
    (hH : H ≠ []) (hdH : ∀ c ∈ H, isDigit c = true) (hHr : (digitsValue H : Int) ≤ maxInt)
    (he : e ∈ extTokens) :
    parseUrl clk (['/'] ++ W ++ ['x'] ++ H ++ ['.'] ++ e) =
      ⟨digitsValue W, digitsValue H,
        formatInt (digitsValue W) ++ ['x'] ++ formatInt (digitsValue H),
        formatSwitch e, none⟩ ∧
    parseUrl clk (['/'] ++ [] ++ ['/'] ++ W ++ ['x'] ++ H ++ ['.'] ++ e) =
      ⟨digitsValue W, digitsValue H,
        formatInt (digitsValue W) ++ ['x'] ++ formatInt (digitsValue H),
        formatSwitch e, none⟩ ∧
    digitsValue (formatInt (digitsValue W)) = digitsValue W ∧
    digitsValue (formatInt (digitsValue H)) = digitsValue H ∧
    ((formatInt (digitsValue W)).head? = some '0' → digitsValue W = 0) ∧
    ((formatInt (digitsValue H)).head? = some '0' → digitsValue H = 0) := by
  have hwf1 : WellFormed none W H e := by
    refine ⟨?_, hW, hdW, hH, hdH, he⟩
    intro L' hL'; cases hL'
  have hwf2 : WellFormed (some []) W H e := by
    refine ⟨?_, hW, hdW, hH, hdH, he⟩
    intro L' hL' c hc; cases hL'; cases hc
  refine ⟨?_, ?_, ?_, ?_, formatInt_no_leading_zero _, formatInt_no_leading_zero _⟩
  · rw [mkPath_none_eq, parseUrl_of_wf clk none W H e hwf1]
    simp [hWr, hHr, resolveText]
  · rw [mkPath_some_eq, parseUrl_of_wf clk (some []) W H e hwf2]
    simp [hWr, hHr, resolveText]
  · rw [formatInt_natCast]; exact (toDigits_spec _).2.2
  · rw [formatInt_natCast]; exact (toDigits_spec _).2.2

/-- C3 at the digit runs `007` and `50` with the extension `png`: the text is `7x50` on the
path `/007x50.png` and on the path `//007x50.png`. -/
theorem parseUrl_default_text_witness :
    (parseUrl ⟨0, []⟩ (['/'] ++ "007".toList ++ ['x'] ++ "50".toList ++ ['.'] ++ "png".toList) =
      ⟨digitsValue "007".toList, digitsValue "50".toList,
        formatInt (digitsValue "007".toList) ++ ['x'] ++ formatInt (digitsValue "50".toList),
        formatSwitch "png".toList, none⟩ ∧
    parseUrl ⟨0, []⟩ (['/'] ++ [] ++ ['/'] ++ "007".toList ++ ['x'] ++ "50".toList ++ ['.'] ++
        "png".toList) =
      ⟨digitsValue "007".toList, digitsValue "50".toList,
        formatInt (digitsValue "007".toList) ++ ['x'] ++ formatInt (digitsValue "50".toList),
        formatSwitch "png".toList, none⟩ ∧
    digitsValue (formatInt (digitsValue "007".toList)) = digitsValue "007".toList ∧
    digitsValue (formatInt (digitsValue "50".toList)) = digitsValue "50".toList ∧
    ((formatInt (digitsValue "007".toList)).head? = some '0' → digitsValue "007".toList = 0) ∧
    ((formatInt (digitsValue "50".toList)).head? = some '0' → digitsValue "50".toList = 0)) ∧
    (parseUrl ⟨0, []⟩ "/007x50.png".toList).text = "7x50".toList ∧
    (parseUrl ⟨0, []⟩ "//007x50.png".toList).text = "7x50".toList ∧
    (parseUrl ⟨0, []⟩ "/100x50.png".toList) = ⟨100, 50, "100x50".toList, png, none⟩ :=
  ⟨parseUrl_default_text ⟨0, []⟩ "007".toList "50".toList "png".toList
    (by decide) (by decide) (by decide) (by decide) (by decide) (by decide) (by decide),
    by decide, by decide, by decide⟩

theorem slash_not_mem_ext (e : List Char) (he : e ∈ extTokens) : '/' ∉ e := by
  have hall : ∀ x ∈ extTokens, '/' ∉ x := by decide
  exact hall e he

/-- C4: for every path, if `parseUrl` returns no error then the path ends in a slash followed by
a segment without slash of the form `W`, `x`, `H`, `.`, `ext`, where `W` and `H` are non-empty
runs of decimal digits that denote integers within the range of `int` and `ext` is one of the
tokens `png`, `jpg`, `jpeg`, `gif`. -/
theorem parseUrl_ok_only_wellformed (clk : Clock) (path : List Char)
    (h : (parseUrl clk path).err = none) :
    ∃ pre W H e, path = pre ++ ['/'] ++ (W ++ ['x'] ++ H ++ ['.'] ++ e) ∧
      '/' ∉ W ++ ['x'] ++ H ++ ['.'] ++ e ∧
      W ≠ [] ∧ (∀ c ∈ W, isDigit c = true) ∧ (digitsValue W : Int) ≤ maxInt ∧
      H ≠ [] ∧ (∀ c ∈ H, isDigit c = true) ∧ (digitsValue H : Int) ≤ maxInt ∧
      e ∈ extTokens := by
  obtain ⟨lbl, W, H, e, ⟨-, hW, hdW, hH, hdH, he⟩, rfl, hWr, hHr⟩ := parseUrl_ok_shape clk path h
  refine ⟨labelPrefix lbl, W, H, e, by simp [mkPath], ?_, hW, hdW, hWr, hH, hdH, hHr, he⟩
  simp only [List.mem_append, List.mem_singleton, not_or]
  exact ⟨⟨⟨⟨not_mem_of_digits '/' (by decide) W hdW, by decide⟩,
    not_mem_of_digits '/' (by decide) H hdH⟩, by decide⟩, slash_not_mem_ext e he⟩

/-- C4 at the path `/a/b/100x50.gif`, with the four rejected paths of the claim beside it. -/
theorem parseUrl_ok_only_wellformed_witness :
    (∃ pre W H e, "/a/b/100x50.gif".toList = pre ++ ['/'] ++ (W ++ ['x'] ++ H ++ ['.'] ++ e) ∧
      '/' ∉ W ++ ['x'] ++ H ++ ['.'] ++ e ∧
      W ≠ [] ∧ (∀ c ∈ W, isDigit c = true) ∧ (digitsValue W : Int) ≤ maxInt ∧
      H ≠ [] ∧ (∀ c ∈ H, isDigit c = true) ∧ (digitsValue H : Int) ≤ maxInt ∧
      e ∈ extTokens) ∧
    (parseUrl ⟨0, []⟩ "/100x50.bmp".toList).err ≠ none ∧
    (parseUrl ⟨0, []⟩ "/abcx50.png".toList).err ≠ none ∧
    (parseUrl ⟨0, []⟩ "/bad".toList).err ≠ none ∧
    (parseUrl ⟨0, []⟩ "/9223372036854775808x50.png".toList).err ≠ none ∧
    (parseUrl ⟨0, []⟩ "/100x50.PNG".toList).err ≠ none :=
  ⟨parseUrl_ok_only_wellformed ⟨0, []⟩ "/a/b/100x50.gif".toList (by decide),
    by decide, by decide, by decide, by decide, by decide⟩

/-- C5: for every path, if `parseUrl` returns no error then the path ends in a dot followed by
an extension token without dot, and the returned format is `png` for the token `png`, `jpg`
for the tokens `jpg` and `jpeg`, `gif` for the token `gif`; it is never the empty format. -/
theorem parseUrl_format_of_extension (clk : Clock) (path : List Char)
    (h : (parseUrl clk path).err = none) :
    (∃ pre e, path = pre ++ ['.'] ++ e ∧ '.' ∉ e ∧
      ((e = "png".toList ∧ (parseUrl clk path).format = png) ∨
       (e = "jpg".toList ∧ (parseUrl clk path).format = jpg) ∨
       (e = "jpeg".toList ∧ (parseUrl clk path).format = jpg) ∨
       (e = "gif".toList ∧ (parseUrl clk path).format = gif))) ∧
    ((parseUrl clk path).format = png ∨ (parseUrl clk path).format = jpg ∨
      (parseUrl clk path).format = gif) ∧
    (parseUrl clk path).format ≠ "" := by
  obtain ⟨lbl, W, H, e, hwf, rfl, hWr, hHr⟩ := parseUrl_ok_shape clk path h
  have hfmt : (parseUrl clk (mkPath lbl W H e)).format = formatSwitch e := by
    rw [parseUrl_of_wf clk lbl W H e hwf, if_neg (not_not.mpr hWr), if_neg (not_not.mpr hHr)]
  have he := hwf.2.2.2.2.2
  have hsw := formatSwitch_of_ext e he
  rw [hfmt]
  refine ⟨⟨labelPrefix lbl ++ ['/'] ++ W ++ ['x'] ++ H, e, by simp [mkPath],
    dot_not_mem_ext e he, hsw⟩, ?_, ?_⟩
  · rcases hsw with ⟨-, h1⟩ | ⟨-, h1⟩ | ⟨-, h1⟩ | ⟨-, h1⟩ <;> simp [h1]
  · rcases hsw with ⟨-, h1⟩ | ⟨-, h1⟩ | ⟨-, h1⟩ | ⟨-, h1⟩ <;> rw [h1] <;> decide

/-- C5 at the path `/hello/100x50.jpeg`, whose format is `jpg`. -/
theorem parseUrl_format_of_extension_witness :
    (parseUrl ⟨0, []⟩ "/hello/100x50.jpeg".toList).format = jpg ∧
    ((∃ pre e, "/hello/100x50.jpeg".toList = pre ++ ['.'] ++ e ∧ '.' ∉ e ∧
      ((e = "png".toList ∧ (parseUrl ⟨0, []⟩ "/hello/100x50.jpeg".toList).format = png) ∨
       (e = "jpg".toList ∧ (parseUrl ⟨0, []⟩ "/hello/100x50.jpeg".toList).format = jpg) ∨
       (e = "jpeg".toList ∧ (parseUrl ⟨0, []⟩ "/hello/100x50.jpeg".toList).format = jpg) ∨
       (e = "gif".toList ∧ (parseUrl ⟨0, []⟩ "/hello/100x50.jpeg".toList).format = gif))) ∧
    ((parseUrl ⟨0, []⟩ "/hello/100x50.jpeg".toList).format = png ∨
      (parseUrl ⟨0, []⟩ "/hello/100x50.jpeg".toList).format = jpg ∨
      (parseUrl ⟨0, []⟩ "/hello/100x50.jpeg".toList).format = gif) ∧
    (parseUrl ⟨0, []⟩ "/hello/100x50.jpeg".toList).format ≠ "") :=
  ⟨by decide, parseUrl_format_of_extension ⟨0, []⟩ "/hello/100x50.jpeg".toList (by decide)⟩

/-- C6: with the clock as an input whose Unix-millisecond reading is an `int64`, for every
accepted path whose label is exactly `timestamp` the text returned by `parseUrl` is the decimal
rendering of that reading, which `Atoi` parses back to the reading; and on a path whose label
is not `timestamp` the result of `parseUrl` does not depend on the reading. -/
theorem parseUrl_timestamp (clk : Clock) (W H e : List Char)
    (hlo : minInt ≤ clk.unixMilli) (hhi : clk.unixMilli ≤ maxInt)
    (hW : W ≠ []) (hdW : ∀ c ∈ W, isDigit c = true) (hWr : (digitsValue W : Int) ≤ maxInt)
    (hH : H ≠ []) (hdH : ∀ c ∈ H, isDigit c = true) (hHr : (digitsValue H : Int) ≤ maxInt)
    (he : e ∈ extTokens) :
    parseUrl clk (['/'] ++ "timestamp".toList ++ ['/'] ++ W ++ ['x'] ++ H ++ ['.'] ++ e) =
      ⟨digitsValue W, digitsValue H, formatInt clk.unixMilli, formatSwitch e, none⟩ ∧
    Atoi (formatInt clk.unixMilli) = (clk.unixMilli, none) ∧
    ∀ (path : List Char) (ms : Int),
      (findRegexpMatches exp path).lookup "text" ≠ some "timestamp".toList →
        parseUrl ⟨ms, clk.datetime⟩ path = parseUrl clk path := by
  have hwf : WellFormed (some "timestamp".toList) W H e := by
    refine ⟨?_, hW, hdW, hH, hdH, he⟩
    intro L' hL'
    cases hL'
    decide
  refine ⟨?_, Atoi_formatInt _ hlo hhi, ?_⟩
  · rw [mkPath_some_eq, parseUrl_of_wf clk _ W H e hwf, if_neg (not_not.mpr hWr),
      if_neg (not_not.mpr hHr)]
    have h1 : "timestamp".toList ≠ [] := by decide
    simp only [resolveText, Option.getD_some, h1, if_false, if_true]
  · intro path ms hne
    simp only [parseUrl, resolveText_clock ms clk _ _ _ hne]

/-- C6 at the path `/timestamp/100x50.gif` with the clock at 1700000000123 ms: the text is
`1700000000123`; on the path `/timestamps/100x50.gif` the text is the label. -/
theorem parseUrl_timestamp_witness :
    (parseUrl ⟨1700000000123, []⟩ (['/'] ++ "timestamp".toList ++ ['/'] ++ "100".toList ++
        ['x'] ++ "50".toList ++ ['.'] ++ "gif".toList) =
      ⟨digitsValue "100".toList, digitsValue "50".toList, formatInt 1700000000123,
        formatSwitch "gif".toList, none⟩ ∧
    Atoi (formatInt 1700000000123) = (1700000000123, none) ∧
    ∀ (path : List Char) (ms : Int),
      (findRegexpMatches exp path).lookup "text" ≠ some "timestamp".toList →
        parseUrl ⟨ms, []⟩ path = parseUrl ⟨1700000000123, []⟩ path) ∧
    parseUrl ⟨1700000000123, []⟩ "/timestamp/100x50.gif".toList =
      ⟨100, 50, "1700000000123".toList, gif, none⟩ ∧
    parseUrl ⟨1700000000123, []⟩ "/timestamps/100x50.gif".toList =
      ⟨100, 50, "timestamps".toList, gif, none⟩ :=
  ⟨parseUrl_timestamp ⟨1700000000123, []⟩ "100".toList "50".toList "gif".toList
    (by decide) (by decide) (by decide) (by decide) (by decide) (by decide) (by decide)
    (by decide) (by decide), by decide, by decide⟩

/-! ## The claims on the font fitter -/

theorem wrapInt_of_range (i : Int) (h1 : minInt ≤ i) (h2 : i ≤ maxInt) : wrapInt i = i := by
  simp only [wrapInt, intSize, maxInt, minInt] at *
  norm_num at *
  have h3 : (i + 9223372036854775808) % 18446744073709551616 = i + 9223372036854775808 :=
    Int.emod_eq_of_lt (by omega) (by omega)
  omega

theorem loadFontFace_err (g : Graphics) (dc : Context) (width height : Int) (text : List Char) :
    (loadFontFace g dc width height text).2 = g.fontParse := by
  unfold loadFontFace
  cases g.fontParse <;> rfl

theorem loadFontFace_size (g : Graphics) (dc : Context) (width height : Int) (text : List Char)
    (hfont : g.fontParse = none) :
    (loadFontFace g dc width height text).1.face =
      some (fitPoints width height (g.measure text).1 (g.measure text).2) := by
  unfold loadFontFace
  rw [hfont]

/-- C7, counterexample: on a canvas of 1 by 1 with the text `1x1` measuring 120 by 84 at the
reference size, the point size is not positive, yet `loadFontFace`, `drawLabel` and
`drawImage` all return no error. -/
theorem loadFontFace_accepts_nonpositive_points :
    fitPoints 1 1 120 84 ≤ 0 ∧
    (loadFontFace ⟨none, fun _ => (120, 84), fun _ _ _ _ => ([137, 80, 78, 71], none)⟩
      ⟨none, none⟩ 1 1 "1x1".toList).2 = none ∧
    (drawLabel ⟨none, fun _ => (120, 84), fun _ _ _ _ => ([137, 80, 78, 71], none)⟩
      1 1 "1x1".toList).2 = none ∧
    (drawImage ⟨none, fun _ => (120, 84), fun _ _ _ _ => ([137, 80, 78, 71], none)⟩
      1 1 "1x1".toList png).2 = none := by
  refine ⟨?_, rfl, rfl, by decide⟩
  simp only [fitPoints]
  have h72 : wrapInt (72 * 1) = 72 := by decide
  rw [h72]
  norm_num

/-- C7, amended: whenever the point size computed by the fitter is not positive and the
embedded font parses, `loadFontFace` returns no error (its error is that of the font parser
and nothing else) and sets the face with that size as its `Size` option, `drawLabel` returns
no error and draws the text, and `drawImage` returns an error only if the encoder does. -/
theorem loadFontFace_nonpositive_points (g : Graphics) (dc : Context) (width height : Int)
    (text : List Char) (hfont : g.fontParse = none)
    (_hp : fitPoints width height (g.measure text).1 (g.measure text).2 ≤ 0) :
    (loadFontFace g dc width height text).2 = none ∧
    (loadFontFace g dc width height text).1.face =
      some (fitPoints width height (g.measure text).1 (g.measure text).2) ∧
    (drawLabel g width height text).2 = none ∧
    (drawLabel g width height text).1.drawn =
      some (text, (width : ℚ) / 2, (height : ℚ) / 2) ∧
    ∀ format, (drawImage g width height text format).2 ≠ none →
      (g.encode format width height
        ⟨some (fitPoints width height (g.measure text).1 (g.measure text).2),
          some (text, (width : ℚ) / 2, (height : ℚ) / 2)⟩).2 ≠ none := by
  have hl : loadFontFace g ⟨none, none⟩ width height text =
      (⟨some (fitPoints width height (g.measure text).1 (g.measure text).2), none⟩, none) := by
    unfold loadFontFace
    rw [hfont]
  have hd : drawLabel g width height text =
      (⟨some (fitPoints width height (g.measure text).1 (g.measure text).2),
        some (text, (width : ℚ) / 2, (height : ℚ) / 2)⟩, none) := by
    simp only [drawLabel, hl]
  refine ⟨by rw [loadFontFace_err, hfont], loadFontFace_size g dc width height text hfont,
    by rw [hd], by rw [hd], ?_⟩
  intro format hne henc
  apply hne
  simp only [drawImage, hd]
  by_cases hf : format = png ∨ format = jpg ∨ format = gif
  · simp only [hf, if_true]
    cases hres : g.encode format width height
      ⟨some (fitPoints width height (g.measure text).1 (g.measure text).2),
        some (text, (width : ℚ) / 2, (height : ℚ) / 2)⟩ with
    | mk out err =>
      rw [hres] at henc
      simp only at henc
      subst henc
      rfl
  · simp only [hf, if_false]

/-- C7, amended, on the canvas of 1 by 1 with the text `1x1` measuring 120 by 84. -/
theorem loadFontFace_nonpositive_points_witness :
    (loadFontFace ⟨none, fun _ => (120, 84), fun _ _ _ _ => ([137, 80, 78, 71], none)⟩
      ⟨none, none⟩ 1 1 "1x1".toList).2 = none ∧
    (drawLabel ⟨none, fun _ => (120, 84), fun _ _ _ _ => ([137, 80, 78, 71], none)⟩
      1 1 "1x1".toList).2 = none := by
  have hp : fitPoints 1 1 120 84 ≤ 0 := by
    simp only [fitPoints]
    have h72 : wrapInt (72 * 1) = 72 := by decide
    rw [h72]
    norm_num
  have h := loadFontFace_nonpositive_points
    ⟨none, fun _ => (120, 84), fun _ _ _ _ => ([137, 80, 78, 71], none)⟩
    ⟨none, none⟩ 1 1 "1x1".toList rfl hp
  exact ⟨h.1, h.2.2.1⟩

/-- C8: for every width and height at least 1 whose products with 72 do not overflow `int`,
and every text whose measured extents `tw` and `th` at the reference size 72 are positive,
the point size `p` of the face that `loadFontFace` sets is the floor of the smaller of
`0.8*72*width/tw` and `0.8*72*height/th`, and it fits the canvas on both axes under linear
scaling: `p*tw/72 ≤ 0.8*width` and `p*th/72 ≤ 0.8*height`. -/
theorem loadFontFace_fits (g : Graphics) (dc : Context) (width height : Int) (text : List Char)
    (hfont : g.fontParse = none) (hw : 1 ≤ width) (hh : 1 ≤ height)
    (hwo : 72 * width ≤ maxInt) (hho : 72 * height ≤ maxInt)
    (htw : 0 < (g.measure text).1) (hth : 0 < (g.measure text).2) :
    ∃ p : ℚ, (loadFontFace g dc width height text) = ({ dc with face := some p }, none) ∧
      p = ((⌊min (0.8 * 72 * (width : ℚ) / (g.measure text).1)
        (0.8 * 72 * (height : ℚ) / (g.measure text).2)⌋ : ℤ) : ℚ) ∧
      p * (g.measure text).1 / 72 ≤ 0.8 * width ∧
      p * (g.measure text).2 / 72 ≤ 0.8 * height := by
  have hmin : minInt < 0 := by decide
  have e1 : wrapInt (72 * width) = 72 * width := wrapInt_of_range _ (by omega) hwo
  have e2 : wrapInt (72 * height) = 72 * height := wrapInt_of_range _ (by omega) hho
  have hsize : fitPoints width height (g.measure text).1 (g.measure text).2 =
      ((⌊min (0.8 * 72 * (width : ℚ) / (g.measure text).1)
        (0.8 * 72 * (height : ℚ) / (g.measure text).2)⌋ : ℤ) : ℚ) := by
    simp only [fitPoints, e1, e2]
    push_cast
    simp only [mul_assoc]
  have hfl := Int.floor_le (min (0.8 * 72 * (width : ℚ) / (g.measure text).1)
    (0.8 * 72 * (height : ℚ) / (g.measure text).2))
  have h1 := le_trans hfl (min_le_left _ _)
  have h2 := le_trans hfl (min_le_right _ _)
  rw [le_div_iff₀ htw] at h1
  rw [le_div_iff₀ hth] at h2
  refine ⟨fitPoints width height (g.measure text).1 (g.measure text).2, ?_, hsize, ?_, ?_⟩
  · unfold loadFontFace
    rw [hfont]
  · rw [hsize, div_le_iff₀ (by norm_num : (0 : ℚ) < 72)]
    linarith
  · rw [hsize, div_le_iff₀ (by norm_num : (0 : ℚ) < 72)]
    linarith

/-- C8 on a canvas of 300 by 150 with a text measuring 280 by 84: the point size is 61. -/
theorem loadFontFace_fits_witness :
    (∃ p : ℚ, (loadFontFace ⟨none, fun _ => (280, 84), fun _ _ _ _ => ([], none)⟩ ⟨none, none⟩
        300 150 "300x150".toList) = ({ (⟨none, none⟩ : Context) with face := some p }, none) ∧
      p = ((⌊min (0.8 * 72 * ((300 : Int) : ℚ) / 280) (0.8 * 72 * ((150 : Int) : ℚ) / 84)⌋ : ℤ) : ℚ) ∧
      p * 280 / 72 ≤ 0.8 * ((300 : Int) : ℚ) ∧
      p * 84 / 72 ≤ 0.8 * ((150 : Int) : ℚ)) ∧
    fitPoints 300 150 280 84 = 61 := by
  refine ⟨loadFontFace_fits ⟨none, fun _ => (280, 84), fun _ _ _ _ => ([], none)⟩ ⟨none, none⟩
    300 150 "300x150".toList rfl (by decide) (by decide) (by decide) (by decide)
    (by norm_num) (by norm_num), ?_⟩
  simp only [fitPoints]
  have ha : wrapInt (72 * 300) = 21600 := by decide
  have hb : wrapInt (72 * 150) = 10800 := by decide
  rw [ha, hb]
  norm_num

/-! ## The claims on the handler -/

theorem statusCode_fresh (w : ResponseWriter) (code : Nat) (hfresh : w.committed = none)
    (hcode : code ≠ 200) :
    statusCode w code = { w with committed := some (code, w.header) } := by
  simp only [statusCode, hcode, ne_eq, not_false_eq_true, if_true, ResponseWriter.WriteHeader,
    hfresh]

theorem imageHandler_parse_fail (clk : Clock) (g : Graphics) (w : ResponseWriter)
    (path : List Char) (h : (parseUrl clk path).err ≠ none) :
    imageHandler clk g w path = statusCode w 404 := by
  have h1 : (parseUrl clk path).err.isSome = true := Option.isSome_iff_ne_none.mpr h
  simp only [imageHandler, h1, if_true]

theorem imageHandler_draw_fail (clk : Clock) (g : Graphics) (w : ResponseWriter)
    (path : List Char) (h : (parseUrl clk path).err = none)
    (hd : (drawImage g (parseUrl clk path).width (parseUrl clk path).height
      (parseUrl clk path).text (parseUrl clk path).format).2 ≠ none) :
    imageHandler clk g w path = statusCode w 500 := by
  have h2 : (drawImage g (parseUrl clk path).width (parseUrl clk path).height
      (parseUrl clk path).text (parseUrl clk path).format).2.isSome = true :=
    Option.isSome_iff_ne_none.mpr hd
  simp only [imageHandler, h, Option.isSome_none, Bool.false_eq_true, if_false, h2, if_true]

theorem imageHandler_write_fail (clk : Clock) (g : Graphics) (w : ResponseWriter)
    (path : List Char) (h : (parseUrl clk path).err = none)
    (hd : (drawImage g (parseUrl clk path).width (parseUrl clk path).height
      (parseUrl clk path).text (parseUrl clk path).format).2 = none)
    (hw : (w.Write (drawImage g (parseUrl clk path).width (parseUrl clk path).height
      (parseUrl clk path).text (parseUrl clk path).format).1).2.2 ≠ none) :
    imageHandler clk g w path =
      statusCode (w.Write (drawImage g (parseUrl clk path).width (parseUrl clk path).height
        (parseUrl clk path).text (parseUrl clk path).format).1).1 500 := by
  have h3 : (w.Write (drawImage g (parseUrl clk path).width (parseUrl clk path).height
      (parseUrl clk path).text (parseUrl clk path).format).1).2.2.isSome = true :=
    Option.isSome_iff_ne_none.mpr hw
  simp only [imageHandler, h, hd, Option.isSome_none, Bool.false_eq_true, if_false, h3, if_true]

/-- C9, counterexample: the request `/300x150.png` parses and renders to four bytes, the
connection accepts three of them and `Write` fails; on this failure path of `imageHandler`
three body bytes have been written. -/
theorem imageHandler_partial_body_on_write_failure :
    (parseUrl ⟨0, []⟩ "/300x150.png".toList).err = none ∧
    drawImage ⟨none, fun _ => (280, 84), fun _ _ _ _ => ([137, 80, 78, 71], none)⟩
      300 150 "300x150".toList png = ([137, 80, 78, 71], none) ∧
    ((⟨[], none, [], 3⟩ : ResponseWriter).Write [137, 80, 78, 71]).2.2 ≠ none ∧
    (imageHandler ⟨0, []⟩
      ⟨none, fun _ => (280, 84), fun _ _ _ _ => ([137, 80, 78, 71], none)⟩
      ⟨[], none, [], 3⟩ "/300x150.png".toList).body = [137, 80, 78] ∧
    (imageHandler ⟨0, []⟩
      ⟨none, fun _ => (280, 84), fun _ _ _ _ => ([137, 80, 78, 71], none)⟩
      ⟨[], none, [], 3⟩ "/300x150.png".toList).committed = some (200, []) := by
  refine ⟨by decide, by decide, by decide, by decide, by decide⟩

/-- C9, amended: for every request on a response writer on which nothing is committed yet, if
`parseUrl` fails `imageHandler` commits status 404 and if `drawImage` fails it commits status
500, and on these two failure paths no body byte has been written and the headers are
untouched; on the third failure path, a failing `Write` of the response writer, the status
committed is 200 and the bytes the connection accepted stay written. -/
theorem imageHandler_failure_paths (clk : Clock) (g : Graphics) (w : ResponseWriter)
    (path : List Char) (hfresh : w.committed = none) :
    ((parseUrl clk path).err ≠ none →
      (imageHandler clk g w path).committed = some (404, w.header) ∧
      (imageHandler clk g w path).body = w.body ∧
      (imageHandler clk g w path).header = w.header) ∧
    ((parseUrl clk path).err = none →
      (drawImage g (parseUrl clk path).width (parseUrl clk path).height
        (parseUrl clk path).text (parseUrl clk path).format).2 ≠ none →
      (imageHandler clk g w path).committed = some (500, w.header) ∧
      (imageHandler clk g w path).body = w.body ∧
      (imageHandler clk g w path).header = w.header) ∧
    ((parseUrl clk path).err = none →
      (drawImage g (parseUrl clk path).width (parseUrl clk path).height
        (parseUrl clk path).text (parseUrl clk path).format).2 = none →
      (w.Write (drawImage g (parseUrl clk path).width (parseUrl clk path).height
        (parseUrl clk path).text (parseUrl clk path).format).1).2.2 ≠ none →
      (imageHandler clk g w path).committed = some (200, w.header) ∧
      (imageHandler clk g w path).body = w.body ++
        (drawImage g (parseUrl clk path).width (parseUrl clk path).height
          (parseUrl clk path).text (parseUrl clk path).format).1.take
          (min (drawImage g (parseUrl clk path).width (parseUrl clk path).height
            (parseUrl clk path).text (parseUrl clk path).format).1.length w.room) ∧
      (imageHandler clk g w path).header = w.header) := by
  refine ⟨?_, ?_, ?_⟩
  · intro h
    rw [imageHandler_parse_fail clk g w path h, statusCode_fresh w 404 hfresh (by decide)]
    exact ⟨rfl, rfl, rfl⟩
  · intro h hd
    rw [imageHandler_draw_fail clk g w path h hd, statusCode_fresh w 500 hfresh (by decide)]
    exact ⟨rfl, rfl, rfl⟩
  · intro h hd hw
    rw [imageHandler_write_fail clk g w path h hd hw]
    simp only [statusCode, ResponseWriter.Write, ResponseWriter.WriteHeader, hfresh]
    refine ⟨by simp, by simp, by simp⟩

/-- C9, amended, at the request `/bad`: status 404 is committed and the body is empty. -/
theorem imageHandler_failure_paths_witness :
    (imageHandler ⟨0, []⟩
      ⟨none, fun _ => (280, 84), fun _ _ _ _ => ([137, 80, 78, 71], none)⟩
      ⟨[], none, [], 1000⟩ "/bad".toList).committed = some (404, []) ∧
    (imageHandler ⟨0, []⟩
      ⟨none, fun _ => (280, 84), fun _ _ _ _ => ([137, 80, 78, 71], none)⟩
      ⟨[], none, [], 1000⟩ "/bad".toList).body = [] ∧
    (imageHandler ⟨0, []⟩
      ⟨none, fun _ => (280, 84), fun _ _ _ _ => ([137, 80, 78, 71], none)⟩
      ⟨[], none, [], 1000⟩ "/bad".toList).header = [] :=
  (imageHandler_failure_paths ⟨0, []⟩
    ⟨none, fun _ => (280, 84), fun _ _ _ _ => ([137, 80, 78, 71], none)⟩
    ⟨[], none, [], 1000⟩ "/bad".toList rfl).1 (by decide)

theorem HeaderSet_committed (w : ResponseWriter) (k v : String) :
    (w.HeaderSet k v).committed = w.committed := rfl

theorem imageHandler_success_committed (clk : Clock) (g : Graphics) (w : ResponseWriter)
    (path : List Char) (hfresh : w.committed = none) (h : (parseUrl clk path).err = none)
    (hd : (drawImage g (parseUrl clk path).width (parseUrl clk path).height
      (parseUrl clk path).text (parseUrl clk path).format).2 = none)
    (hw : (w.Write (drawImage g (parseUrl clk path).width (parseUrl clk path).height
      (parseUrl clk path).text (parseUrl clk path).format).1).2.2 = none) :
    (imageHandler clk g w path).committed = some (200, w.header) := by
  have hc : (w.Write (drawImage g (parseUrl clk path).width (parseUrl clk path).height
      (parseUrl clk path).text (parseUrl clk path).format).1).1.committed =
      some (200, w.header) := by
    simp only [ResponseWriter.Write, ResponseWriter.WriteHeader, hfresh]
  simp only [imageHandler, h, hd, hw, Option.isSome_none, Bool.false_eq_true, if_false,
    HeaderSet_committed]
  split_ifs <;> simp only [HeaderSet_committed, hc]

/-- C10, the code at the request `/300x150.png`, which parses, renders to four bytes and is
written whole: the headers committed with status 200 by the body write are empty, and the
handler puts `Content-Type` and `Content-Length` in the header map only afterwards. -/
theorem imageHandler_headers_set_after_commit :
    (imageHandler ⟨0, []⟩
      ⟨none, fun _ => (280, 84), fun _ _ _ _ => ([137, 80, 78, 71], none)⟩
      ⟨[], none, [], 1000⟩ "/300x150.png".toList).committed = some (200, []) ∧
    (imageHandler ⟨0, []⟩
      ⟨none, fun _ => (280, 84), fun _ _ _ _ => ([137, 80, 78, 71], none)⟩
      ⟨[], none, [], 1000⟩ "/300x150.png".toList).body = [137, 80, 78, 71] ∧
    (imageHandler ⟨0, []⟩
      ⟨none, fun _ => (280, 84), fun _ _ _ _ => ([137, 80, 78, 71], none)⟩
      ⟨[], none, [], 1000⟩ "/300x150.png".toList).header =
        [("Content-Length", "4"), ("Content-Type", "image/png")] := by
  refine ⟨by decide, by decide, by decide⟩

end DummyImage
